import Mathlib

/-!
Verification of the parallel-map core (`fun` / `parmap`) and of
`cost_normalization` from `ot/utils.py`.

The worker pool is embedded as follows.  An item travelling on the input
queue is a pair `Option Nat × α`: the coordinator sends the work item
`(i, x)` as `(some i, x)` and the shutdown sentinel `(None, None)` as
`(none, s)`, where `s` is the payload slot of the sentinel (in Python the
constant `None`; the embedding keeps it as a parameter and every theorem
holds for all `s`, which reflects that the worker inspects only the index
slot).  A run of the pool is parametrised by a schedule `asgn` assigning
each work index to the worker that dequeues it; because the queue is FIFO
and every work item is enqueued before the sentinels, each worker receives
its assigned work items in index order followed by exactly one sentinel.
The order in which results arrive on the output queue is arbitrary; the
theorems quantify over an arbitrary permutation of the produced results.
Blocking forever (a `q_out.get()` that can never be served) is modelled by
`none`.
-/

namespace POT

/-- One item of the input queue: `(some i, x)` is the work item `(i, x)`,
`(none, s)` is the termination sentinel `(None, None)`. -/
abbrev QItem (α : Type u) := Option Nat × α

/-- Embedding of the worker loop `fun(f, q_in, q_out)` of `ot/utils.py`,
applied to the list of items this worker dequeues, in order.  It returns the
results the worker puts on the output queue together with the items of its
list it never dequeues because the loop has ended.  The loop breaks exactly
when the first slot of a dequeued pair is `None`. -/
def wfun (f : α → β) : List (QItem α) → List (Nat × β) × List (QItem α)
  | [] => ([], [])
  | (none, _) :: rest => ([], rest)
  | (some i, x) :: rest =>
    let r := wfun f rest
    ((i, f x) :: r.1, r.2)

/-- The items `parmap` puts on the input queue, in order: the enumerated
input sequence, then one sentinel per worker. -/
def queueContents (X : List α) (s : α) (nprocs : Nat) : List (QItem α) :=
  (X.enum.map fun e => ((some e.1, e.2) : QItem α)) ++ List.replicate nprocs (none, s)

/-- The items dequeued by worker `k` under schedule `asgn`: its assigned
work items in index order, then the one sentinel that stops it. -/
def workerItems (X : List α) (asgn : Nat → Nat) (s : α) (k : Nat) : List (QItem α) :=
  ((X.enum.filter fun e => asgn e.1 == k).map fun e => ((some e.1, e.2) : QItem α)) ++ [(none, s)]

/-- Concatenation of `g 0 ++ g 1 ++ ... ++ g (n-1)`. -/
def concatMap (g : Nat → List γ) : Nat → List γ
  | 0 => []
  | n + 1 => concatMap g n ++ g n

/-- Everything the workers put on the output queue during a run. -/
def allOutputs (f : α → β) (X : List α) (nprocs : Nat) (asgn : Nat → Nat) (s : α) :
    List (Nat × β) :=
  concatMap (fun k => (wfun f (workerItems X asgn s k)).1) nprocs

/-- Embedding of `sorted(res)`: Python sorts the result pairs
lexicographically; as the indices of the collected pairs are pairwise
distinct, this agrees with any stable sort on the index slot. -/
def sortByIdx (res : List (Nat × β)) : List (Nat × β) :=
  List.insertionSort (fun a b => a.1 ≤ b.1) res

/-- Embedding of the final line `[x for i, x in sorted(res)]`. -/
def sortRes (res : List (Nat × β)) : List β :=
  (sortByIdx res).map Prod.snd

/-- Embedding of `parmap(f, X, nprocs)` under schedule `asgn`, with the
results collected in production order.  The coordinator performs exactly
`len(sent)` blocking `q_out.get()` calls; if fewer results are ever
produced the call blocks forever, which is modelled by `none`. -/
def parmap (f : α → β) (X : List α) (nprocs : Nat) (asgn : Nat → Nat) (s : α) :
    Option (List β) :=
  let outs := allOutputs f X nprocs asgn s
  if outs.length < X.length then none
  else some (sortRes (outs.take X.length))

/-- Worker loop when the user function can raise: an uncaught exception in
`f` kills the worker, so the loop ends producing no result for the failing
item and reading nothing further.  `f x = none` means `f` raises on `x`. -/
def wfunE (f : α → Option β) : List (QItem α) → List (Nat × β)
  | [] => []
  | (none, _) :: _ => []
  | (some i, x) :: rest =>
    match f x with
    | none => []
    | some v => (i, v) :: wfunE f rest

/-- Output-queue contents of a run whose user function can raise. -/
def allOutputsE (f : α → Option β) (X : List α) (nprocs : Nat) (asgn : Nat → Nat) (s : α) :
    List (Nat × β) :=
  concatMap (fun k => wfunE f (workerItems X asgn s k)) nprocs

/-- `parmap` when the user function can raise. -/
def parmapE (f : α → Option β) (X : List α) (nprocs : Nat) (asgn : Nat → Nat) (s : α) :
    Option (List β) :=
  let outs := allOutputsE f X nprocs asgn s
  if outs.length < X.length then none
  else some (sortRes (outs.take X.length))

/-- Number of sentinels in a list of queue items. -/
def countSentinels (l : List (QItem α)) : Nat :=
  l.countP fun q => q.1 == none

/-- The run of one worker on its assigned work items followed by its
sentinel: it answers every work item in order, then stops at the sentinel
having consumed its whole input. -/
theorem wfun_run (f : α → β) (ws : List (Nat × α)) (s : α) :
    wfun f ((ws.map fun e => ((some e.1, e.2) : QItem α)) ++ [(none, s)]) =
      (ws.map fun e => (e.1, f e.2), []) := by
  induction ws with
  | nil => rfl
  | cons e rest ih => simp [wfun, ih]

/-- Elements with key below `P`, followed by the elements with key exactly
`P`, are a permutation of the elements with key below `P + 1`. -/
theorem filter_lt_succ_perm (l : List γ) (key : γ → Nat) (P : Nat) :
    ((l.filter fun e => key e < P) ++ (l.filter fun e => key e == P)).Perm
      (l.filter fun e => key e < P + 1) := by
  induction l with
  | nil => simp
  | cons a rest ihl =>
    simp only [List.filter_cons]
    by_cases h1 : key a < P
    · have h2 : key a < P + 1 := Nat.lt_succ_of_lt h1
      have d2 : ¬ key a = P := by omega
      rw [if_pos (by simpa using h1), if_neg (by simpa using d2),
        if_pos (by simpa using h2)]
      exact ihl.cons a
    · by_cases h2 : key a = P
      · have h3 : key a < P + 1 := by omega
        rw [if_neg (by simpa using h1), if_pos (by simpa using h2),
          if_pos (by simpa using h3)]
        refine List.Perm.trans List.perm_middle ?_
        exact ihl.cons a
      · have h3 : ¬ key a < P + 1 := by omega
        rw [if_neg (by simpa using h1), if_neg (by simpa using h2),
          if_neg (by simpa using h3)]
        exact ihl

/-- Splitting a list into the buckets of a `Nat`-valued key, bucket by
bucket, is a permutation of the elements whose key is below the bucket
count. -/
theorem concatMap_filter_perm (l : List γ) (key : γ → Nat) (P : Nat) :
    (concatMap (fun k => l.filter fun e => key e == k) P).Perm
      (l.filter fun e => key e < P) := by
  induction P with
  | zero =>
    simp [concatMap]
  | succ P ih =>
    have h1 : (concatMap (fun k => l.filter fun e => key e == k) (P + 1)).Perm
        ((l.filter fun e => key e < P) ++ (l.filter fun e => key e == P)) :=
      ih.append_right _
    exact h1.trans (filter_lt_succ_perm l key P)

/-- `concatMap` commutes with `List.map`. -/
theorem concatMap_map (g : Nat → List γ) (h : γ → δ) (P : Nat) :
    concatMap (fun k => (g k).map h) P = (concatMap g P).map h := by
  induction P with
  | zero => rfl
  | succ P ih => simp [concatMap, ih]

/-- Under a schedule assigning every work index to one of the `nprocs`
workers, the work items received across all workers are a permutation of
the enumerated input. -/
theorem enum_filter_perm (X : List α) (asgn : Nat → Nat) (nprocs : Nat)
    (hval : ∀ i, i < X.length → asgn i < nprocs) :
    (concatMap (fun k => X.enum.filter fun e => asgn e.1 == k) nprocs).Perm X.enum := by
  have hfil : (X.enum.filter fun e => asgn e.1 < nprocs) = X.enum := by
    refine List.filter_eq_self.mpr ?_
    intro e he
    have h1 : e.1 ∈ X.enum.map Prod.fst := List.mem_map_of_mem Prod.fst he
    rw [List.enum_map_fst] at h1
    have : e.1 < X.length := List.mem_range.mp h1
    simpa using hval e.1 this
  have hperm := concatMap_filter_perm X.enum (fun e => asgn e.1) nprocs
  rw [hfil] at hperm
  exact hperm

/-- The results produced across all workers are a permutation of the ideal
result list `[(i, f X[i]) for i in range(N)]`, for every schedule that
assigns each work item to one of the `nprocs` workers. -/
theorem allOutputs_perm (f : α → β) (X : List α) (nprocs : Nat) (asgn : Nat → Nat) (s : α)
    (hval : ∀ i, i < X.length → asgn i < nprocs) :
    (allOutputs f X nprocs asgn s).Perm (X.enum.map fun e => (e.1, f e.2)) := by
  have hperm := enum_filter_perm X asgn nprocs hval
  have heach : (fun k => (wfun f (workerItems X asgn s k)).1) =
      fun k => ((X.enum.filter fun e => asgn e.1 == k).map fun e => (e.1, f e.2)) := by
    funext k
    have := wfun_run f (X.enum.filter fun e => asgn e.1 == k) s
    simp only [workerItems]
    rw [this]
  rw [allOutputs, heach, concatMap_map]
  exact hperm.map _

/-- The ideal result list is strictly sorted on its index slot. -/
theorem ideal_sorted (f : α → β) (X : List α) :
    List.Sorted (fun a b : Nat × β => a.1 < b.1) (X.enum.map fun e => (e.1, f e.2)) := by
  refine List.pairwise_map.mpr ?_
  have h0 : List.Pairwise (fun a b : Nat => a < b) (X.enum.map Prod.fst) := by
    rw [List.enum_map_fst]
    exact List.pairwise_lt_range _
  have h : List.Pairwise (fun a b : Nat × α => a.1 < b.1) X.enum :=
    List.pairwise_map.mp h0
  exact h.imp (fun hab => hab)

/-- Sorting on the index slot yields a list sorted on the index slot. -/
theorem sortByIdx_sorted (res : List (Nat × β)) :
    List.Sorted (fun a b : Nat × β => a.1 ≤ b.1) (sortByIdx res) := by
  haveI : IsTotal (Nat × β) (fun a b => a.1 ≤ b.1) := ⟨fun a b => Nat.le_total a.1 b.1⟩
  haveI : IsTrans (Nat × β) (fun a b => a.1 ≤ b.1) := ⟨fun _ _ _ h1 h2 => Nat.le_trans h1 h2⟩
  exact List.sorted_insertionSort _ res

/-- Sorting on the index slot permutes the list. -/
theorem sortByIdx_perm (res : List (Nat × β)) : (sortByIdx res).Perm res :=
  List.perm_insertionSort _ res

/-- A list of index-tagged results that is a permutation of a list strictly
sorted on indices is rearranged by `sortByIdx` into exactly that list: this
is how the coordinator recovers the input order from an arbitrary arrival
order. -/
theorem sortByIdx_eq (res target : List (Nat × β)) (hperm : res.Perm target)
    (hsorted : List.Sorted (fun a b : Nat × β => a.1 < b.1) target) :
    sortByIdx res = target := by
  haveI : IsAntisymm (Nat × β) (fun a b => a.1 < b.1) :=
    ⟨fun _ _ h1 h2 => absurd h2 (Nat.lt_asymm h1)⟩
  have hp : (sortByIdx res).Perm target := (sortByIdx_perm res).trans hperm
  refine List.eq_of_perm_of_sorted hp ?_ hsorted
  have hndt : (target.map Prod.fst).Nodup := by
    refine List.pairwise_map.mpr ?_
    exact hsorted.imp (fun hab => Nat.ne_of_lt hab)
  have hnds : ((sortByIdx res).map Prod.fst).Nodup :=
    ((hp.map Prod.fst).nodup_iff).mpr hndt
  have hne : List.Pairwise (fun a b : Nat × β => a.1 ≠ b.1) (sortByIdx res) :=
    List.pairwise_map.mp hnds
  have hle := sortByIdx_sorted res
  exact (List.Pairwise.and hle hne).imp (fun hab => Nat.lt_of_le_of_ne hab.1 hab.2)

/-- Any arrival order of the ideal results is sorted back to the sequential
map of `f` over `X`. -/
theorem sortRes_eq (f : α → β) (X : List α) (res : List (Nat × β))
    (hperm : res.Perm (X.enum.map fun e => (e.1, f e.2))) :
    sortRes res = X.map f := by
  rw [sortRes, sortByIdx_eq res _ hperm (ideal_sorted f X), List.map_map]
  have h : (Prod.snd ∘ fun e : Nat × α => (e.1, f e.2)) = f ∘ Prod.snd := rfl
  rw [h, ← List.map_map, List.enum_map_snd]

/-- The workers produce exactly one result per input element. -/
theorem allOutputs_length (f : α → β) (X : List α) (P : Nat) (asgn : Nat → Nat) (s : α)
    (hasgn : ∀ i, i < X.length → asgn i < P) :
    (allOutputs f X P asgn s).length = X.length := by
  rw [(allOutputs_perm f X P asgn s hasgn).length_eq, List.length_map, List.enum_length]

/-- C1: for every finite input `X` of length `N`, every `f` and every
worker count `P ≥ 1`, `parmap(f, X, P)` returns (it does not block), and
for every order in which the `N` results can arrive on the output queue the
returned sequence has length `N` and its `i`-th element is `f(X[i])`. -/
theorem parmap_correct (f : α → β) (X : List α) (P : Nat) (asgn : Nat → Nat) (s : α)
    (hP : 1 ≤ P) (hasgn : ∀ i, i < X.length → asgn i < P)
    (res : List (Nat × β)) (hres : res.Perm (allOutputs f X P asgn s)) :
    parmap f X P asgn s = some (X.map f) ∧
      (sortRes res).length = X.length ∧
      ∀ (i : Nat) (hi : i < X.length), (sortRes res)[i]? = some (f (X.get ⟨i, hi⟩)) := by
  have hperm := allOutputs_perm f X P asgn s hasgn
  have hlen := allOutputs_length f X P asgn s hasgn
  have hsort : sortRes res = X.map f := sortRes_eq f X res (hres.trans hperm)
  refine ⟨?_, ?_, ?_⟩
  · simp only [parmap]
    rw [if_neg (by omega)]
    rw [← hlen, List.take_length]
    rw [sortRes_eq f X _ hperm]
  · rw [hsort, List.length_map]
  · intro i hi
    rw [hsort, List.getElem?_map, List.getElem?_eq_getElem hi]
    simp

/-- Witness for C1: squaring `[1, 2, 3]` with two workers, the second of
which finishes first. -/
theorem parmap_correct_witness :
    parmap (fun x : Nat => x * x) [1, 2, 3] 2 (fun i => i % 2) 0 = some ([1, 2, 3].map fun x => x * x) ∧
      (sortRes [(1, 4), (0, 1), (2, 9)]).length = ([1, 2, 3] : List Nat).length ∧
      ∀ (i : Nat) (hi : i < ([1, 2, 3] : List Nat).length),
        (sortRes [(1, 4), (0, 1), (2, 9)])[i]? =
          some ((fun x : Nat => x * x) (([1, 2, 3] : List Nat).get ⟨i, hi⟩)) :=
  parmap_correct (fun x : Nat => x * x) [1, 2, 3] 2 (fun i => i % 2) 0
    (by decide) (by decide) [(1, 4), (0, 1), (2, 9)] (by decide)

/-- C2: the worker loop stops as soon as it dequeues a sentinel, reading
nothing further and producing no output for it; on a work item `(i, x)` it
puts exactly `(i, f x)` on the output queue and keeps looping on the rest
of its input. -/
theorem wfun_step (f : α → β) (i : Nat) (x s : α) (rest : List (QItem α)) :
    wfun f ((none, s) :: rest) = ([], rest) ∧
      wfun f ((some i, x) :: rest) = ((i, f x) :: (wfun f rest).1, (wfun f rest).2) :=
  ⟨rfl, rfl⟩

/-- A bucketed concatenation of empty lists is empty. -/
theorem concatMap_eq_nil (g : Nat → List γ) (P : Nat) (h : ∀ k, g k = []) :
    concatMap g P = [] := by
  induction P with
  | zero => rfl
  | succ P ih => simp [concatMap, ih, h]

/-- C5: a run pushes exactly one sentinel per worker onto the input queue,
every worker dequeues exactly one sentinel, and every worker finishes its
loop with nothing left unread (so every `p.join()` returns), for any input
length including zero. -/
theorem sentinel_invariant (f : α → β) (X : List α) (P : Nat) (asgn : Nat → Nat) (s : α) :
    countSentinels (queueContents X s P) = P ∧
      ∀ k, k < P → countSentinels (workerItems X asgn s k) = 1 ∧
        (wfun f (workerItems X asgn s k)).2 = [] := by
  have hmap0 : ∀ (l : List (Nat × α)),
      List.countP (fun q : QItem α => q.1 == none)
        (l.map fun e => ((some e.1, e.2) : QItem α)) = 0 := by
    intro l
    rw [List.countP_eq_zero]
    intro q hq
    rcases List.mem_map.mp hq with ⟨e, _, rfl⟩
    simp
  have hrep : ∀ Q : Nat,
      List.countP (fun q : QItem α => q.1 == none) (List.replicate Q ((none, s) : QItem α)) = Q := by
    intro Q
    induction Q with
    | zero => rfl
    | succ Q ih =>
      rw [List.replicate_succ, List.countP_cons]
      simp [ih]
  constructor
  · rw [queueContents, countSentinels, List.countP_append, hmap0, hrep]
    omega
  · intro k _
    constructor
    · rw [workerItems, countSentinels, List.countP_append, hmap0]
      rfl
    · rw [workerItems, wfun_run]

/-- Witness for C5: two workers over a three-element input. -/
theorem sentinel_invariant_witness :
    countSentinels (queueContents [10, 20, 30] 0 2) = 2 ∧
      (countSentinels (workerItems [10, 20, 30] (fun i => i % 2) 0 1) = 1 ∧
        (wfun (fun x : Nat => x + 1) (workerItems [10, 20, 30] (fun i => i % 2) 0 1)).2 = []) :=
  ⟨(sentinel_invariant (fun x : Nat => x + 1) [10, 20, 30] 2 (fun i => i % 2) 0).1,
    (sentinel_invariant (fun x : Nat => x + 1) [10, 20, 30] 2 (fun i => i % 2) 0).2 1 (by decide)⟩

/-- C6: on the empty input the queue carries only the `P` sentinels, the
workers produce nothing, every worker still terminates, and the call
returns the empty list instead of blocking. -/
theorem parmap_empty (f : α → β) (P : Nat) (asgn : Nat → Nat) (s : α) :
    queueContents ([] : List α) s P = List.replicate P (none, s) ∧
      allOutputs f ([] : List α) P asgn s = [] ∧
      parmap f ([] : List α) P asgn s = some [] ∧
      ∀ k, k < P → (wfun f (workerItems ([] : List α) asgn s k)).2 = [] := by
  have hout : allOutputs f ([] : List α) P asgn s = [] := by
    refine concatMap_eq_nil _ _ ?_
    intro k
    rw [workerItems]
    simp [wfun]
  refine ⟨by simp [queueContents], hout, ?_, ?_⟩
  · simp [parmap, hout, sortRes, sortByIdx]
  · intro k _
    rw [workerItems]
    simp [wfun]

/-- Witness for C6: empty input with four workers. -/
theorem parmap_empty_witness :
    parmap (fun x : Nat => x * x) ([] : List Nat) 4 (fun _ => 0) 0 = some [] ∧
      (wfun (fun x : Nat => x * x) (workerItems ([] : List Nat) (fun _ => 0) 0 3)).2 = [] :=
  ⟨(parmap_empty (fun x : Nat => x * x) 4 (fun _ => 0) 0).2.2.1,
    (parmap_empty (fun x : Nat => x * x) 4 (fun _ => 0) 0).2.2.2 3 (by decide)⟩

/-- C7: with a single worker the call returns exactly the sequential map
of `f` over `X`, whatever order the coordinator sees the results in. -/
theorem parmap_single_worker (f : α → β) (X : List α) (asgn : Nat → Nat) (s : α)
    (hasgn : ∀ i, i < X.length → asgn i < 1)
    (res : List (Nat × β)) (hres : res.Perm (allOutputs f X 1 asgn s)) :
    sortRes res = X.map f ∧ parmap f X 1 asgn s = some (X.map f) := by
  have hperm := allOutputs_perm f X 1 asgn s hasgn
  have hlen := allOutputs_length f X 1 asgn s hasgn
  refine ⟨sortRes_eq f X res (hres.trans hperm), ?_⟩
  simp only [parmap]
  rw [if_neg (by omega), ← hlen, List.take_length, sortRes_eq f X _ hperm]

/-- Witness for C7: a single worker mapping over three inputs. -/
theorem parmap_single_worker_witness :
    sortRes (allOutputs (fun x : Nat => x + 7) [3, 1, 2] 1 (fun _ => 0) 0) =
        [3, 1, 2].map (fun x : Nat => x + 7) ∧
      parmap (fun x : Nat => x + 7) [3, 1, 2] 1 (fun _ => 0) 0 =
        some ([3, 1, 2].map fun x : Nat => x + 7) :=
  parmap_single_worker (fun x : Nat => x + 7) [3, 1, 2] (fun _ => 0) 0 (by decide)
    (allOutputs (fun x : Nat => x + 7) [3, 1, 2] 1 (fun _ => 0) 0) (List.Perm.refl _)

/-- C8: two runs over the same pure `f`, the same `X` and the same worker
count return identical output sequences, even under different schedules
and different arrival orders. -/
theorem parmap_deterministic (f : α → β) (X : List α) (P : Nat)
    (a1 a2 : Nat → Nat) (s1 s2 : α)
    (h1 : ∀ i, i < X.length → a1 i < P) (h2 : ∀ i, i < X.length → a2 i < P)
    (res1 res2 : List (Nat × β))
    (hr1 : res1.Perm (allOutputs f X P a1 s1)) (hr2 : res2.Perm (allOutputs f X P a2 s2)) :
    sortRes res1 = sortRes res2 ∧ parmap f X P a1 s1 = parmap f X P a2 s2 := by
  have e1 : sortRes res1 = X.map f :=
    sortRes_eq f X res1 (hr1.trans (allOutputs_perm f X P a1 s1 h1))
  have e2 : sortRes res2 = X.map f :=
    sortRes_eq f X res2 (hr2.trans (allOutputs_perm f X P a2 s2 h2))
  have l1 := allOutputs_length f X P a1 s1 h1
  have l2 := allOutputs_length f X P a2 s2 h2
  refine ⟨e1.trans e2.symm, ?_⟩
  have t1 : (allOutputs f X P a1 s1).take X.length = allOutputs f X P a1 s1 := by
    rw [← l1]
    exact List.take_length _
  have t2 : (allOutputs f X P a2 s2).take X.length = allOutputs f X P a2 s2 := by
    rw [← l2]
    exact List.take_length _
  simp only [parmap]
  rw [if_neg (by omega), if_neg (by omega), t1, t2,
    sortRes_eq f X _ (allOutputs_perm f X P a1 s1 h1),
    sortRes_eq f X _ (allOutputs_perm f X P a2 s2 h2)]

/-- Witness for C8: two different schedules and arrival orders over the
same input. -/
theorem parmap_deterministic_witness :
    sortRes [(1, 3), (0, 2), (2, 4)] = sortRes [(2, 4), (1, 3), (0, 2)] ∧
      parmap (fun x : Nat => x + 1) [1, 2, 3] 2 (fun i => i % 2) 0 =
        parmap (fun x : Nat => x + 1) [1, 2, 3] 2 (fun _ => 0) 5 :=
  parmap_deterministic (fun x : Nat => x + 1) [1, 2, 3] 2 (fun i => i % 2) (fun _ => 0) 0 5
    (by decide) (by decide) [(1, 3), (0, 2), (2, 4)] [(2, 4), (1, 3), (0, 2)]
    (by decide) (by decide)

/-- C9: the termination test looks only at the index slot, so the work item
`(i, None)` is processed as ordinary work while `(None, s)` stops the loop
for every payload `s`; consequently an input sequence containing `None`
elements is mapped correctly. -/
theorem none_payload_processed (f : Option γ → β) (i : Nat) (rest : List (QItem (Option γ)))
    (X : List (Option γ)) (P : Nat) (asgn : Nat → Nat)
    (hasgn : ∀ j, j < X.length → asgn j < P)
    (res : List (Nat × β)) (hres : res.Perm (allOutputs f X P asgn none)) :
    wfun f ((some i, (none : Option γ)) :: rest) =
        ((i, f none) :: (wfun f rest).1, (wfun f rest).2) ∧
      (∀ s : Option γ, wfun f ((none, s) :: rest) = ([], rest)) ∧
      sortRes res = X.map f :=
  ⟨rfl, fun _ => rfl,
    sortRes_eq f X res (hres.trans (allOutputs_perm f X P asgn none hasgn))⟩

/-- Witness for C9: the input `[None, Some 5]` is mapped correctly with the
sentinel payload also being `None`. -/
theorem none_payload_processed_witness :
    wfun (fun o : Option Nat => o.getD 9) ((some 0, (none : Option Nat)) :: [(none, none)]) =
        ((0, (9 : Nat)) :: (wfun (fun o : Option Nat => o.getD 9) [(none, none)]).1,
          (wfun (fun o : Option Nat => o.getD 9) [(none, none)]).2) ∧
      (∀ s : Option Nat,
        wfun (fun o : Option Nat => o.getD 9) ((none, s) :: [((none : Option Nat), none)]) =
          ([], [((none : Option Nat), none)])) ∧
      sortRes [(1, 5), (0, 9)] = [none, some 5].map (fun o : Option Nat => o.getD 9) := by
  have h := none_payload_processed (fun o : Option Nat => o.getD 9) 0 [(none, none)]
    [none, some 5] 1 (fun _ => 0) (by decide) [(1, 5), (0, 9)] (by decide)
  exact ⟨h.1, h.2.1, h.2.2⟩

/-- Number of work items in a list of queue items. -/
def workCount (l : List (QItem α)) : Nat :=
  l.countP fun q => q.1.isSome

/-- A worker never answers more items than the work items it receives. -/
theorem wfunE_length_le (f : α → Option β) (l : List (QItem α)) :
    (wfunE f l).length ≤ workCount l := by
  induction l with
  | nil => exact Nat.le_refl 0
  | cons q rest ih =>
    match q with
    | (none, x) => exact Nat.zero_le _
    | (some i, x) =>
      cases hfx : f x with
      | none =>
        have h0 : wfunE f ((some i, x) :: rest) = [] := by simp [wfunE, hfx]
        rw [h0]
        exact Nat.zero_le _
      | some v =>
        have h0 : wfunE f ((some i, x) :: rest) = (i, v) :: wfunE f rest := by
          simp [wfunE, hfx]
        have hw : workCount (((some i, x) : QItem α) :: rest) = workCount rest + 1 := by
          rw [workCount, List.countP_cons]
          simp [workCount]
        rw [h0, hw, List.length_cons]
        omega

/-- A worker that receives a work item on which `f` raises answers strictly
fewer items than the work items it receives: it dies at the first failure,
and in particular the failing item gets no answer. -/
theorem wfunE_length_lt (f : α → Option β) (l : List (QItem α))
    (hfail : ∃ j x, ((some j, x) : QItem α) ∈ l ∧ f x = none) :
    (wfunE f l).length < workCount l := by
  induction l with
  | nil =>
    rcases hfail with ⟨j, x, hx, _⟩
    simp at hx
  | cons q rest ih =>
    rcases hfail with ⟨j, x, hmem, hfx⟩
    match q with
    | (none, y) =>
      have hin : ((some j, x) : QItem α) ∈ rest := by
        rcases List.mem_cons.mp hmem with heq | h2
        · exact absurd (congrArg Prod.fst heq) (by simp)
        · exact h2
      have hpos : 0 < workCount rest :=
        List.countP_pos_iff.mpr ⟨(some j, x), hin, rfl⟩
      have hwc : workCount (((none, y) : QItem α) :: rest) = workCount rest := by
        rw [workCount, List.countP_cons]
        simp [workCount]
      rw [hwc]
      simpa [wfunE] using hpos
    | (some i, y) =>
      have hw : workCount (((some i, y) : QItem α) :: rest) = workCount rest + 1 := by
        rw [workCount, List.countP_cons]
        simp [workCount]
      rw [hw]
      cases hfy : f y with
      | none =>
        have h0 : wfunE f ((some i, y) :: rest) = [] := by simp [wfunE, hfy]
        rw [h0]
        simp
      | some v =>
        have h0 : wfunE f ((some i, y) :: rest) = (i, v) :: wfunE f rest := by
          simp [wfunE, hfy]
        rw [h0, List.length_cons]
        have hin : ((some j, x) : QItem α) ∈ rest := by
          rcases List.mem_cons.mp hmem with heq | h2
          · have : x = y := by
              have := congrArg Prod.snd heq
              simpa using this
            subst this
            rw [hfx] at hfy
            cases hfy
          · exact h2
        have := ih ⟨j, x, hin, hfx⟩
        omega

/-- Pointwise length bounds carry over to bucketed concatenations. -/
theorem concatMap_length_le (g : Nat → List γ) (h : Nat → List δ) (P : Nat)
    (hle : ∀ k, k < P → (g k).length ≤ (h k).length) :
    (concatMap g P).length ≤ (concatMap h P).length := by
  induction P with
  | zero => exact Nat.le_refl 0
  | succ P ih =>
    rw [concatMap, concatMap, List.length_append, List.length_append]
    have h1 := ih fun k hk => hle k (Nat.lt_succ_of_lt hk)
    have h2 := hle P (Nat.lt_succ_self P)
    omega

/-- A single strictly shorter bucket makes the whole concatenation strictly
shorter. -/
theorem concatMap_length_lt (g : Nat → List γ) (h : Nat → List δ) (P : Nat)
    (hle : ∀ k, k < P → (g k).length ≤ (h k).length)
    (k0 : Nat) (hk0 : k0 < P) (hlt : (g k0).length < (h k0).length) :
    (concatMap g P).length < (concatMap h P).length := by
  induction P with
  | zero => exact absurd hk0 (Nat.not_lt_zero k0)
  | succ P ih =>
    rw [concatMap, concatMap, List.length_append, List.length_append]
    by_cases hc : k0 = P
    · subst hc
      have h1 := concatMap_length_le g h k0 fun k hk => hle k (Nat.lt_succ_of_lt hk)
      omega
    · have hk0' : k0 < P := by omega
      have h1 := ih (fun k hk => hle k (Nat.lt_succ_of_lt hk)) hk0'
      have h2 := hle P (Nat.lt_succ_self P)
      omega

/-- The work items a worker receives are exactly the enumerated entries its
schedule assigns to it. -/
theorem workCount_workerItems (X : List α) (asgn : Nat → Nat) (s : α) (k : Nat) :
    workCount (workerItems X asgn s k) = (X.enum.filter fun e => asgn e.1 == k).length := by
  rw [workerItems, workCount, List.countP_append]
  have h1 : List.countP (fun q : QItem α => q.1.isSome)
      ((X.enum.filter fun e => asgn e.1 == k).map fun e => ((some e.1, e.2) : QItem α)) =
      ((X.enum.filter fun e => asgn e.1 == k).map fun e => ((some e.1, e.2) : QItem α)).length := by
    rw [List.countP_eq_length]
    intro q hq
    rcases List.mem_map.mp hq with ⟨e, _, rfl⟩
    rfl
  rw [h1, List.length_map]
  rfl

/-- Every answer a worker gives comes from a work item it received, whose
payload `f` accepted. -/
theorem wfunE_mem (f : α → Option β) (l : List (QItem α)) (p : Nat × β)
    (hp : p ∈ wfunE f l) :
    ∃ x, ((some p.1, x) : QItem α) ∈ l ∧ f x = some p.2 := by
  induction l with
  | nil => simp [wfunE] at hp
  | cons q rest ih =>
    match q with
    | (none, y) => simp [wfunE] at hp
    | (some i, y) =>
      cases hfy : f y with
      | none =>
        rw [wfunE, hfy] at hp
        simp at hp
      | some v =>
        rw [wfunE, hfy] at hp
        rcases List.mem_cons.mp hp with heq | h2
        · subst heq
          exact ⟨y, List.mem_cons_self _ _, hfy⟩
        · rcases ih h2 with ⟨x, hx, hfx⟩
          exact ⟨x, List.mem_cons_of_mem _ hx, hfx⟩

/-- Members of a bucketed concatenation come from one of the buckets. -/
theorem mem_concatMap (g : Nat → List γ) (P : Nat) (c : γ) (hc : c ∈ concatMap g P) :
    ∃ k, k < P ∧ c ∈ g k := by
  induction P with
  | zero => simp [concatMap] at hc
  | succ P ih =>
    rw [concatMap] at hc
    rcases List.mem_append.mp hc with h1 | h2
    · rcases ih h1 with ⟨k, hk, hmem⟩
      exact ⟨k, Nat.lt_succ_of_lt hk, hmem⟩
    · exact ⟨P, Nat.lt_succ_self P, h2⟩

/-- C3: if `f` raises on `X[i]` the worker holding that item dies without
answering it, no result tagged `i` ever reaches the output queue, and the
coordinator, which performs exactly `N` blocking `q_out.get()` calls,
blocks forever: the whole call hangs instead of failing fast. -/
theorem worker_failure_hangs (f : α → Option β) (X : List α) (P : Nat) (asgn : Nat → Nat)
    (s : α) (hval : ∀ j, j < X.length → asgn j < P)
    (i : Nat) (hi : i < X.length) (hfail : f (X.get ⟨i, hi⟩) = none) :
    (∀ p ∈ allOutputsE f X P asgn s, p.1 ≠ i) ∧ parmapE f X P asgn s = none := by
  constructor
  · intro p hp hpi
    rcases mem_concatMap _ P p hp with ⟨k, hk, hmem⟩
    rcases wfunE_mem f _ p hmem with ⟨x, hx, hfx⟩
    rw [workerItems] at hx
    rcases List.mem_append.mp hx with hx1 | hx2
    · rcases List.mem_map.mp hx1 with ⟨e, he, heq⟩
      have he1 : e.1 = p.1 := by
        have h := congrArg Prod.fst heq
        simpa using h
      have he2 : e.2 = x := congrArg Prod.snd heq
      have henum : e ∈ X.enum := (List.mem_filter.mp he).1
      have hget : X[e.1]? = some e.2 := List.mem_enum_iff_getElem?.mp henum
      rw [he1, he2, hpi, List.getElem?_eq_getElem hi] at hget
      have hxeq : x = X.get ⟨i, hi⟩ := by
        injection hget with h
        exact h.symm
      rw [hxeq, hfail] at hfx
      cases hfx
    · simp at hx2
  · have hk0 : asgn i < P := hval i hi
    have hmemf : ((i, X.get ⟨i, hi⟩) : Nat × α) ∈
        (X.enum.filter fun e => asgn e.1 == asgn i) := by
      refine List.mem_filter.mpr ⟨?_, by simp⟩
      refine List.mem_enum_iff_getElem?.mpr ?_
      simp [List.getElem?_eq_getElem hi]
    have hmemw : ((some i, X.get ⟨i, hi⟩) : QItem α) ∈ workerItems X asgn s (asgn i) := by
      rw [workerItems]
      exact List.mem_append_left _ (List.mem_map_of_mem _ hmemf)
    have hstrict : (wfunE f (workerItems X asgn s (asgn i))).length <
        (X.enum.filter fun e => asgn e.1 == asgn i).length := by
      rw [← workCount_workerItems X asgn s (asgn i)]
      exact wfunE_length_lt f _ ⟨i, _, hmemw, hfail⟩
    have hle : ∀ k, k < P → (wfunE f (workerItems X asgn s k)).length ≤
        (X.enum.filter fun e => asgn e.1 == k).length := by
      intro k _
      rw [← workCount_workerItems X asgn s k]
      exact wfunE_length_le f _
    have htot := concatMap_length_lt _ _ P hle (asgn i) hk0 hstrict
    have hN : (concatMap (fun k => X.enum.filter fun e => asgn e.1 == k) P).length
        = X.length := by
      rw [(enum_filter_perm X asgn P hval).length_eq, List.enum_length]
    have hlt : (allOutputsE f X P asgn s).length < X.length := by
      rw [allOutputsE]
      omega
    simp only [parmapE]
    rw [if_pos hlt]

/-- Witness for C3: `f` raises on the middle element of a three-element
input spread over two workers; no result carries index 1 and the call
hangs. -/
theorem worker_failure_hangs_witness :
    (∀ p ∈ allOutputsE (fun x : Nat => if x = 20 then none else some x)
        [10, 20, 30] 2 (fun j => j % 2) 0, p.1 ≠ 1) ∧
      parmapE (fun x : Nat => if x = 20 then none else some x)
        [10, 20, 30] 2 (fun j => j % 2) 0 = none :=
  worker_failure_hangs (fun x : Nat => if x = 20 then none else some x)
    [10, 20, 30] 2 (fun j => j % 2) 0 (by decide) 1 (by decide) (by decide)

/-- C4 (amended): `parmap` performs no argument validation.  Zero workers
(the effect of any `workers < 1`, since `range(nprocs)` is then empty)
leaves the input queue unserved: with a nonempty input no result is ever
produced and the call blocks forever instead of reporting an error, while
with an empty input it silently returns `[]`. -/
theorem parmap_no_validation (f : α → β) (x : α) (X : List α) (asgn : Nat → Nat) (s : α) :
    parmap f (x :: X) 0 asgn s = none ∧ parmap f ([] : List α) 0 asgn s = some [] := by
  constructor
  · simp [parmap, allOutputs, concatMap]
  · simp [parmap, allOutputs, concatMap, sortRes, sortByIdx]

/-- C4 counterexample: with `workers = 0 < 1` and input `[5]` the call
blocks forever; no invalid-argument error is ever reported, contrary to
the claim. -/
theorem no_validation_counterexample :
    parmap (fun x : Nat => x + 1) [5] 0 (fun _ => 0) 0 = none := by
  decide

/-- A cost matrix, row by row (numeric entries modelled by rationals). -/
abbrev Mat := List (List ℚ)

/-- A heap of matrices: arrays live at locations and in-place operators
mutate them; `next` is the next fresh location. -/
structure Store where
  mem : Nat → Mat
  next : Nat

/-- Overwrite the matrix at location `l` (an in-place operation such as
`C /= ...`). -/
def Store.write (st : Store) (l : Nat) (v : Mat) : Store :=
  ⟨fun l2 => if l2 = l then v else st.mem l2, st.next⟩

/-- Allocate a fresh array holding `v` (the value of an expression such as
`np.log(1 + C)`), returning the new store and the new location. -/
def Store.alloc (st : Store) (v : Mat) : Store × Nat :=
  (⟨fun l2 => if l2 = st.next then v else st.mem l2, st.next + 1⟩, st.next)

/-- All entries of a matrix, flattened; `np.median` and `np.max` reduce
over the flattened array. -/
def matEntries (M : Mat) : List ℚ :=
  M.flatten

/-- `float(np.median(a))`: the middle entry of the sorted entries when the
count is odd, the mean of the two middle entries when it is even. -/
def npMedian (l : List ℚ) : ℚ :=
  let sl := List.insertionSort (fun a b : ℚ => a ≤ b) l
  if l.length % 2 = 1 then sl.getD (l.length / 2) 0
  else (sl.getD (l.length / 2 - 1) 0 + sl.getD (l.length / 2) 0) / 2

/-- `float(np.max(a))`: the greatest entry.  `np.max` errors on an empty
array; the model returns `0` there, a case the claims never touch. -/
def npMax : List ℚ → ℚ
  | [] => 0
  | x :: xs => xs.foldl max x

/-- Elementwise division of a matrix by a scalar (`C /= d`). -/
def matDiv (M : Mat) (d : ℚ) : Mat :=
  M.map fun row => row.map fun a => a / d

/-- Elementwise `np.log(1 + C)`: the scalar logarithm is the external
numerical routine, passed as `rlog`. -/
def matLog1p (rlog : ℚ → ℚ) (M : Mat) : Mat :=
  M.map fun row => row.map fun a => rlog (1 + a)

/-- Embedding of `cost_normalization(C, norm)` of `ot/utils.py`.  The
matrix argument is passed by its heap location `C`; Python `norm=None` is
`none`.  `C /= float(np.median(C))` and `C /= float(np.max(C))` divide the
argument array in place and the function returns the argument; the two
logarithmic branches rebind the local name to a freshly allocated array
and return it; any other `norm` falls through to `return C`. -/
def cost_normalization (rlog : ℚ → ℚ) (st : Store) (C : Nat) (norm : Option String) :
    Store × Nat :=
  if norm = some "median" then
    (st.write C (matDiv (st.mem C) (npMedian (matEntries (st.mem C)))), C)
  else if norm = some "max" then
    (st.write C (matDiv (st.mem C) (npMax (matEntries (st.mem C)))), C)
  else if norm = some "log" then
    st.alloc (matLog1p rlog (st.mem C))
  else if norm = some "loglog" then
    st.alloc (matLog1p rlog (matLog1p rlog (st.mem C)))
  else (st, C)

/-- C10: for `median` and `max` the returned matrix is the argument itself,
whose entries have been divided in place; for `log` and `loglog` the
argument is left unchanged and a fresh matrix (a location distinct from
every allocated one, in particular from `C`) is returned; for any other
`norm`, `None` included, both the store and the returned matrix are the
argument, unchanged. -/
theorem cost_normalization_frame (rlog : ℚ → ℚ) (st : Store) (C : Nat) (hC : C < st.next) :
    ((cost_normalization rlog st C (some "median")).2 = C ∧
      (cost_normalization rlog st C (some "median")).1.mem C =
        matDiv (st.mem C) (npMedian (matEntries (st.mem C)))) ∧
    ((cost_normalization rlog st C (some "max")).2 = C ∧
      (cost_normalization rlog st C (some "max")).1.mem C =
        matDiv (st.mem C) (npMax (matEntries (st.mem C)))) ∧
    ((cost_normalization rlog st C (some "log")).1.mem C = st.mem C ∧
      (cost_normalization rlog st C (some "log")).2 ≠ C ∧
      (cost_normalization rlog st C (some "log")).1.mem
          (cost_normalization rlog st C (some "log")).2 = matLog1p rlog (st.mem C)) ∧
    ((cost_normalization rlog st C (some "loglog")).1.mem C = st.mem C ∧
      (cost_normalization rlog st C (some "loglog")).2 ≠ C ∧
      (cost_normalization rlog st C (some "loglog")).1.mem
          (cost_normalization rlog st C (some "loglog")).2 =
        matLog1p rlog (matLog1p rlog (st.mem C))) ∧
    ∀ norm : Option String, norm ≠ some "median" → norm ≠ some "max" →
      norm ≠ some "log" → norm ≠ some "loglog" →
      cost_normalization rlog st C norm = (st, C) := by
  have hne : C ≠ st.next := Nat.ne_of_lt hC
  refine ⟨⟨?_, ?_⟩, ⟨?_, ?_⟩, ⟨?_, ?_, ?_⟩, ⟨?_, ?_, ?_⟩, ?_⟩
  · simp [cost_normalization]
  · simp [cost_normalization, Store.write]
  · simp [cost_normalization, Store.write]
  · simp [cost_normalization, Store.write]
  · simp [cost_normalization, Store.alloc, hne]
  · simp [cost_normalization, Store.alloc]
    omega
  · simp [cost_normalization, Store.alloc]
  · simp [cost_normalization, Store.alloc, hne]
  · simp [cost_normalization, Store.alloc]
    omega
  · simp [cost_normalization, Store.alloc]
  · intro norm h1 h2 h3 h4
    rw [cost_normalization, if_neg h1, if_neg h2, if_neg h3, if_neg h4]

/-- A one-matrix store used by the concrete check below. -/
def store0 : Store :=
  ⟨fun _ => [[1, 2]], 1⟩

/-- Witness for C10 at location `0` of a concrete store, with the identity
standing in for the external logarithm. -/
theorem cost_normalization_frame_witness :
    ((cost_normalization (fun a => a) store0 0 (some "median")).2 = 0 ∧
      (cost_normalization (fun a => a) store0 0 (some "median")).1.mem 0 =
        matDiv (store0.mem 0) (npMedian (matEntries (store0.mem 0)))) ∧
    ((cost_normalization (fun a => a) store0 0 (some "max")).2 = 0 ∧
      (cost_normalization (fun a => a) store0 0 (some "max")).1.mem 0 =
        matDiv (store0.mem 0) (npMax (matEntries (store0.mem 0)))) ∧
    ((cost_normalization (fun a => a) store0 0 (some "log")).1.mem 0 = store0.mem 0 ∧
      (cost_normalization (fun a => a) store0 0 (some "log")).2 ≠ 0 ∧
      (cost_normalization (fun a => a) store0 0 (some "log")).1.mem
          (cost_normalization (fun a => a) store0 0 (some "log")).2 =
        matLog1p (fun a => a) (store0.mem 0)) ∧
    ((cost_normalization (fun a => a) store0 0 (some "loglog")).1.mem 0 = store0.mem 0 ∧
      (cost_normalization (fun a => a) store0 0 (some "loglog")).2 ≠ 0 ∧
      (cost_normalization (fun a => a) store0 0 (some "loglog")).1.mem
          (cost_normalization (fun a => a) store0 0 (some "loglog")).2 =
        matLog1p (fun a => a) (matLog1p (fun a => a) (store0.mem 0))) ∧
    ∀ norm : Option String, norm ≠ some "median" → norm ≠ some "max" →
      norm ≠ some "log" → norm ≠ some "loglog" →
      cost_normalization (fun a => a) store0 0 norm = (store0, 0) :=
  cost_normalization_frame (fun a => a) store0 0 (by decide)

end POT
